import Mathlib

/-!
Verification development for a bencode codec and minimal KRPC/DHT layer.

Modelling conventions (shallow embedding of the Python source):
* Python `bytes` values are `List Nat` (each element one byte).
* Python `str` values are represented by their UTF-8 byte content as a
  `List Nat`; this is faithful because UTF-8 encoding is injective,
  `len(s.encode())` is the byte length, and Python's code-point string
  order coincides with lexicographic byte order of the UTF-8 encodings.
* Python streams become explicit parsers: each decoding function takes the
  remaining byte list and returns the parsed value together with the bytes
  after it, or an error (`Except`), mirroring exceptions.
* The recursive-descent decoder is written with an explicit fuel parameter
  so that it is structurally recursive; the entry points supply fuel
  `2 * length + 1`, which is proved sufficient for every encoded value.
-/

namespace DHT

/-- ASCII digit test, the model of `bytes.isdigit` for a single byte. -/
def isDigitByte (b : Nat) : Bool := 48 ≤ b && b ≤ 57

/-- Value of a list of ASCII digit bytes, most significant first. -/
def digitsVal (s : List Nat) : Nat := s.foldl (fun a d => a * 10 + (d - 48)) 0

/-- Parse a nonempty all-digit byte string to a natural number;
`none` models `ValueError` from Python's `int()`. -/
def parseDigits (s : List Nat) : Option Nat :=
  if s ≠ [] ∧ s.all isDigitByte then some (digitsVal s) else none

/-- Model of Python `int(bytestring)`: optional sign followed by digits.
(Python's `int()` additionally tolerates surrounding whitespace and
underscores between digits; no input in this development contains those.) -/
def pyInt (s : List Nat) : Option Int :=
  match s with
  | [] => none
  | b :: rest =>
    if b = 45 then (parseDigits rest).map (fun n => -(n : Int))
    else if b = 43 then (parseDigits rest).map (fun n => (n : Int))
    else (parseDigits (b :: rest)).map (fun n => (n : Int))

/-- Decimal ASCII digits of a natural number (fueled helper). -/
def natDigitsAux : Nat → Nat → List Nat
  | 0, _ => []
  | fuel + 1, n =>
    if n < 10 then [48 + n] else natDigitsAux fuel (n / 10) ++ [48 + n % 10]

/-- Decimal ASCII digits of a natural number, the model of `str(n)` for
nonnegative `n`. -/
def natDigits (n : Nat) : List Nat := natDigitsAux (n + 1) n

/-- ASCII bytes of `str(value)` for a Python integer: a minus sign for
negative values followed by the decimal digits of the magnitude. -/
def intDigits (n : Int) : List Nat :=
  if n < 0 then 45 :: natDigits n.natAbs else natDigits n.natAbs

/-- Lexicographic `≤` on byte strings; models Python `<=` on `str`
(via the UTF-8 representation, which is order-isomorphic to code-point
order) and on `bytes`. -/
def bytesLe : List Nat → List Nat → Bool
  | [], _ => true
  | _ :: _, [] => false
  | a :: as, b :: bs => if a < b then true else if b < a then false else bytesLe as bs

/-- Strict lexicographic `<` on byte strings. -/
def bytesLt : List Nat → List Nat → Bool
  | [], [] => false
  | [], _ :: _ => true
  | _ :: _, [] => false
  | a :: as, b :: bs => if a < b then true else if b < a then false else bytesLt as bs

/-- Order on key-value pairs that compares only the keys.  Python's
`sorted(d.items())` compares `(key, value)` tuples, but a `dict` never holds
two equal keys, so the key comparison alone always decides. -/
def keyLe {α : Type} (a b : List Nat × α) : Prop := bytesLe a.1 b.1 = true

/-- Strict version of `keyLe`. -/
def keyLt {α : Type} (a b : List Nat × α) : Prop := bytesLt a.1 b.1 = true

instance {α : Type} : DecidableRel (@keyLe α) := fun _ _ => decEq _ _

instance {α : Type} : DecidableRel (@keyLt α) := fun _ _ => decEq _ _

/-- The sort performed by `sorted(value.items())` in `encode_dict`. -/
def sortPairs {α : Type} (l : List (List Nat × α)) : List (List Nat × α) :=
  List.insertionSort keyLe l

/-- Is a byte a UTF-8 continuation byte? -/
def utf8Cont (b : Nat) : Bool := 128 ≤ b && b ≤ 191

/-- Fueled validity check for strict UTF-8 (fuel bounds the recursion; the
entry point supplies the list length, which always suffices).  Models
success of Python `bytes.decode()`: rejects stray continuation bytes,
overlong forms, surrogates and code points above U+10FFFF. -/
def utf8ValidF : Nat → List Nat → Bool
  | 0, l => l.isEmpty
  | fuel + 1, l =>
    match l with
    | [] => true
    | b :: rest =>
      if b < 128 then utf8ValidF fuel rest
      else if b < 194 then false
      else if b < 224 then
        match rest with
        | c1 :: r => utf8Cont c1 && utf8ValidF fuel r
        | [] => false
      else if b < 240 then
        match rest with
        | c1 :: c2 :: r =>
          (if b = 224 then 160 ≤ c1 && c1 ≤ 191
           else if b = 237 then 128 ≤ c1 && c1 ≤ 159
           else utf8Cont c1) && utf8Cont c2 && utf8ValidF fuel r
        | _ => false
      else if b < 245 then
        match rest with
        | c1 :: c2 :: c3 :: r =>
          (if b = 240 then 144 ≤ c1 && c1 ≤ 191
           else if b = 244 then 128 ≤ c1 && c1 ≤ 143
           else utf8Cont c1) && utf8Cont c2 && utf8Cont c3 && utf8ValidF fuel r
        | _ => false
      else false

/-- Does `buf.decode()` succeed on these bytes? -/
def utf8Valid (l : List Nat) : Bool := utf8ValidF l.length l

/-- The `SupportedTypes` union of the codec: integers, text strings
(kept as their UTF-8 bytes), lists, dictionaries with text-string keys,
and byte strings.  Dictionaries are kept as insertion-ordered pair lists
because Python dictionaries preserve insertion order. -/
inductive BVal where
  | int (n : Int)
  | str (s : List Nat)
  | list (l : List BVal)
  | dict (d : List (List Nat × BVal))
  | bytes (b : List Nat)
deriving Repr

/-- Wire form `<length>:<payload>` shared by `encode_str` (whose payload is
the UTF-8 encoding, so its length is the byte length) and `encode_bytes`. -/
def encodeStrB (s : List Nat) : List Nat := natDigits s.length ++ 58 :: s

/-- Emit already-encoded dictionary entries: each key as a string, then the
entry's encoded value. -/
def encodeKVs : List (List Nat × List Nat) → List Nat
  | [] => []
  | (k, ev) :: ps => encodeStrB k ++ ev ++ encodeKVs ps

mutual
/-- Model of `encode`/`encode_int`/`encode_str`/`encode_list`/`encode_dict`/
`encode_bytes`.  For dictionaries the source sorts the items and then
encodes each key and value in order; since the comparison reads only the
key, encoding every value first and then sorting the
`(key, encoded value)` pairs emits the same bytes, and keeps this
definition structurally recursive. -/
def encode : BVal → List Nat
  | .int n => 105 :: intDigits n ++ [101]
  | .str s => encodeStrB s
  | .bytes b => encodeStrB b
  | .list vs => 108 :: encodeItems vs ++ [101]
  | .dict ps => 100 :: encodeKVs (sortPairs (encPairs ps)) ++ [101]
/-- The concatenation `b"".join([encode(v) for v in value])` of a list body. -/
def encodeItems : List BVal → List Nat
  | [] => []
  | v :: vs => encode v ++ encodeItems vs
/-- Encode the value of every dictionary entry, keeping the keys. -/
def encPairs : List (List Nat × BVal) → List (List Nat × List Nat)
  | [] => []
  | (k, v) :: ps => (k, encode v) :: encPairs ps
end

mutual
/-- The value `decode(encode(v))` actually produces: dictionaries come back
key-sorted, and a byte string whose content is valid UTF-8 comes back as
the text string with that content (the decoder's UTF-8-first heuristic). -/
def canon : BVal → BVal
  | .int n => .int n
  | .str s => .str s
  | .bytes b => if utf8Valid b then .str b else .bytes b
  | .list vs => .list (canonItems vs)
  | .dict ps => .dict (sortPairs (canonPairs ps))
def canonItems : List BVal → List BVal
  | [] => []
  | v :: vs => canon v :: canonItems vs
def canonPairs : List (List Nat × BVal) → List (List Nat × BVal)
  | [] => []
  | (k, v) :: ps => (k, canon v) :: canonPairs ps
end

/-- No two entries share a key — an invariant of every Python `dict`. -/
def noDupKeys {α : Type} : List (List Nat × α) → Bool
  | [] => true
  | (k, _) :: ps => !(ps.any (fun q => q.1 == k)) && noDupKeys ps

mutual
/-- Well-formedness of a value as produced by Python: every text string
(including every dictionary key) is valid UTF-8, and dictionary keys are
distinct. -/
def WFb : BVal → Bool
  | .int _ => true
  | .str s => utf8Valid s
  | .bytes _ => true
  | .list vs => WFitems vs
  | .dict ps => noDupKeys ps && ps.all (fun p => utf8Valid p.1) && WFpairs ps
def WFitems : List BVal → Bool
  | [] => true
  | v :: vs => WFb v && WFitems vs
def WFpairs : List (List Nat × BVal) → Bool
  | [] => true
  | (_, v) :: ps => WFb v && WFpairs ps
end

mutual
/-- Fuel bound for decoding the encoding of a value (an overapproximation
of the recursion steps, invariant under reordering of dictionary entries). -/
def cost : BVal → Nat
  | .int _ => 1
  | .str _ => 1
  | .bytes _ => 1
  | .list vs => 1 + costItems vs
  | .dict ps => 1 + costPairs ps
def costItems : List BVal → Nat
  | [] => 1
  | v :: vs => 1 + cost v + costItems vs
def costPairs : List (List Nat × BVal) → Nat
  | [] => 1
  | (_, v) :: ps => 1 + cost v + costPairs ps
end

/-- Decode failures (Python exceptions), plus protocol-level failures used by
the session and server models further below. -/
inductive Err where
  | unexpectedEof
  | unterminatedStr
  | unterminatedInt
  | invalidByte (b : Nat)
  | valueError
  | nonStrKey
  | fuelExhausted
  | keyError (k : List Nat)
  | typeError
  | timeout
deriving Repr, DecidableEq

/-- The byte-collecting `while` loops of the decoders: read bytes until the
stop byte appears; `none` models the unterminated-input `ValueError`. -/
def readUntil (stop : Nat) : List Nat → Option (List Nat × List Nat)
  | [] => none
  | b :: rest =>
    if b = stop then some ([], rest)
    else (readUntil stop rest).map (fun pr => (b :: pr.1, pr.2))

/-- Model of `stream.read(n)`: returns at most `n` bytes — fewer when the
stream is exhausted, with no error; a negative count reads everything. -/
def streamRead (n : Int) (l : List Nat) : List Nat × List Nat :=
  if n < 0 then (l, []) else (l.take n.toNat, l.drop n.toNat)

/-- Body of `decode_int_from_stream` after the optional marker skip:
collect bytes until `e`, then apply `int()`. -/
def decodeIntBody (l : List Nat) : Except Err (Int × List Nat) :=
  match readUntil 101 l with
  | none => .error .unterminatedInt
  | some (numStr, rest) =>
    match pyInt numStr with
    | none => .error .valueError
    | some n => .ok (n, rest)

/-- The digit branch of `decode_from_stream`: `decode_str_from_stream`
(length prefix, then the payload decoded as UTF-8 text) with the
`UnicodeDecodeError` fallback that re-reads the same bytes as an opaque
byte string; the fallback re-parses the identical length prefix, so the
two attempts are fused here. -/
def decodeStrOrBytes (l : List Nat) : Except Err (BVal × List Nat) :=
  match readUntil 58 l with
  | none => .error .unterminatedStr
  | some (lenStr, rest) =>
    match pyInt lenStr with
    | none => .error .valueError
    | some n =>
      let (buf, rest') := streamRead n rest
      .ok (if utf8Valid buf then .str buf else .bytes buf, rest')

/-- Python `data[key] = value` on an insertion-ordered mapping: an existing
key keeps its position and receives the new value; a new key is appended. -/
def dictInsert (d : List (List Nat × BVal)) (k : List Nat) (v : BVal) :
    List (List Nat × BVal) :=
  match d with
  | [] => [(k, v)]
  | (k', v') :: rest =>
    if k' = k then (k', v) :: rest else (k', v') :: dictInsert rest k v

mutual
/-- Model of `decode_from_stream`: dispatch on the first byte.  The fuel
argument makes the mutual recursion structural; entry points pass
`length + 1`, which is proved sufficient for every encoded value, and
`.fuelExhausted` is unreachable there. -/
def decodeValF : Nat → List Nat → Except Err (BVal × List Nat)
  | 0, _ => .error .fuelExhausted
  | _ + 1, [] => .error .unexpectedEof
  | fuel + 1, b :: rest =>
    if b = 105 then (decodeIntBody rest).map (fun p => (.int p.1, p.2))
    else if b = 108 then
      (decodeListF fuel [] rest).map (fun p => (.list p.1, p.2))
    else if b = 100 then
      (decodeDictF fuel [] rest).map (fun p => (.dict p.1, p.2))
    else if isDigitByte b then decodeStrOrBytes (b :: rest)
    else .error (.invalidByte b)
/-- The item loop of `decode_list_from_stream` after the marker: peek one
byte; `e` ends the list, otherwise decode one value and append it.  On an
exhausted stream the peeked empty read is not `e`, so the loop re-enters
`decode_from_stream`, which raises the end-of-file error — modelled
directly. -/
def decodeListF : Nat → List BVal → List Nat → Except Err (List BVal × List Nat)
  | 0, _, _ => .error .fuelExhausted
  | fuel + 1, acc, l =>
    match l with
    | [] => .error .unexpectedEof
    | b :: rest =>
      if b = 101 then .ok (acc, rest)
      else do
        let (v, r) ← decodeValF fuel (b :: rest)
        decodeListF fuel (acc ++ [v]) r
/-- The entry loop of `decode_dict_from_stream` after the marker.  The
source accepts any decoded value as a key; every key this repository ever
decodes is a text string, and the model reports `.nonStrKey` in the other
(unused) cases. -/
def decodeDictF : Nat → List (List Nat × BVal) → List Nat →
    Except Err (List (List Nat × BVal) × List Nat)
  | 0, _, _ => .error .fuelExhausted
  | fuel + 1, acc, l =>
    match l with
    | [] => .error .unexpectedEof
    | b :: rest =>
      if b = 101 then .ok (acc, rest)
      else do
        let (k, r) ← decodeValF fuel (b :: rest)
        match k with
        | .str ks => do
          let (v, r') ← decodeValF fuel r
          decodeDictF fuel (dictInsert acc ks v) r'
        | _ => .error .nonStrKey
end

/-- Model of `decode` / `decode_from_bytes`: decode one value from the
front of the input (trailing bytes are ignored, as in the source). -/
def decode (b : List Nat) : Except Err BVal :=
  (decodeValF (2 * b.length + 1) b).map Prod.fst

/-- Model of `decode_dict` / `decode_dict_from_stream` with
`skip_signature=True`: the first byte is skipped unconditionally, then the
entry loop runs. -/
def decode_dict (b : List Nat) : Except Err (List (List Nat × BVal)) :=
  (decodeDictF (2 * b.length + 1) [] b.tail).map Prod.fst

/-- Model of `decode_int` / `decode_int_from_stream` with
`skip_signature=True`: the first byte is skipped unconditionally. -/
def decode_int (b : List Nat) : Except Err Int :=
  (decodeIntBody b.tail).map Prod.fst

/-- Model of `decode_list` / `decode_list_from_stream` with
`skip_signature=True`: the first byte is skipped unconditionally. -/
def decode_list (b : List Nat) : Except Err (List BVal) :=
  (decodeListF (2 * b.length + 1) [] b.tail).map Prod.fst

/-! ### Decimal digits: printing and reparsing -/

lemma natDigitsAux_congr (n : Nat) : ∀ f₁ f₂, n < f₁ → n < f₂ →
    natDigitsAux f₁ n = natDigitsAux f₂ n := by
  induction n using Nat.strong_induction_on with
  | _ n ih =>
    intro f₁ f₂ h₁ h₂
    cases f₁ with
    | zero => omega
    | succ g₁ =>
      cases f₂ with
      | zero => omega
      | succ g₂ =>
        by_cases hn : n < 10
        · simp [natDigitsAux, hn]
        · simp only [natDigitsAux, hn, if_false]
          rw [ih (n / 10) (by omega) g₁ g₂ (by omega) (by omega)]

lemma digitsVal_append (xs : List Nat) (d : Nat) :
    digitsVal (xs ++ [d]) = digitsVal xs * 10 + (d - 48) := by
  simp [digitsVal, List.foldl_append]

lemma natDigits_spec (n : Nat) :
    natDigits n ≠ [] ∧ (natDigits n).all isDigitByte = true ∧
      digitsVal (natDigits n) = n := by
  induction n using Nat.strong_induction_on with
  | _ n ih =>
    by_cases hn : n < 10
    · unfold natDigits natDigitsAux
      rw [if_pos hn]
      refine ⟨by simp, ?_, ?_⟩
      · simp [isDigitByte]; omega
      · simp [digitsVal]
    · obtain ⟨hne, hall, hval⟩ := ih (n / 10) (by omega)
      unfold natDigits natDigitsAux
      rw [if_neg hn]
      rw [natDigitsAux_congr (n / 10) n (n / 10 + 1) (by omega) (by omega)]
      have hd : natDigitsAux (n / 10 + 1) (n / 10) = natDigits (n / 10) := rfl
      rw [hd]
      refine ⟨by simp, ?_, ?_⟩
      · rw [List.all_append, hall]
        simp [isDigitByte]; omega
      · rw [digitsVal_append, hval]; omega

lemma parseDigits_natDigits (n : Nat) : parseDigits (natDigits n) = some n := by
  obtain ⟨h1, h2, h3⟩ := natDigits_spec n
  simp [parseDigits, h1, h2, h3]

lemma pyInt_of_digits (s : List Nat) (hall : s.all isDigitByte = true) :
    pyInt s = (parseDigits s).map (fun n => (n : Int)) := by
  cases s with
  | nil => simp [pyInt, parseDigits]
  | cons b t =>
    have hb : isDigitByte b = true := by
      rw [List.all_cons] at hall
      exact (Bool.and_eq_true _ _ |>.mp hall).1
    have h45 : b ≠ 45 := by simp [isDigitByte] at hb; omega
    have h43 : b ≠ 43 := by simp [isDigitByte] at hb; omega
    simp [pyInt, h45, h43]

lemma pyInt_natDigits (n : Nat) : pyInt (natDigits n) = some (n : Int) := by
  obtain ⟨_, h2, _⟩ := natDigits_spec n
  rw [pyInt_of_digits _ h2, parseDigits_natDigits]
  rfl

lemma pyInt_intDigits (n : Int) : pyInt (intDigits n) = some n := by
  unfold intDigits
  by_cases h : n < 0
  · rw [if_pos h]
    have hh : pyInt (45 :: natDigits n.natAbs) =
        (parseDigits (natDigits n.natAbs)).map (fun m => -(m : Int)) := by
      simp [pyInt]
    rw [hh, parseDigits_natDigits]
    simp
    rw [abs_of_neg h, neg_neg]
  · rw [if_neg h, pyInt_natDigits]
    congr 1
    omega

/-! ### The byte-collecting loops -/

lemma readUntil_append (stop : Nat) (xs ys : List Nat) (h : ∀ x ∈ xs, x ≠ stop) :
    readUntil stop (xs ++ stop :: ys) = some (xs, ys) := by
  induction xs with
  | nil => simp [readUntil]
  | cons a t ih =>
    have ha : a ≠ stop := h a (by simp)
    have ih' := ih (fun x hx => h x (by simp [hx]))
    simp [readUntil, ha, ih']

lemma natDigits_ne (n c : Nat) (hc : 58 ≤ c) : ∀ x ∈ natDigits n, x ≠ c := by
  obtain ⟨_, h2, _⟩ := natDigits_spec n
  intro x hx
  rw [List.all_eq_true] at h2
  have := h2 x hx
  simp [isDigitByte] at this
  omega

lemma intDigits_ne_e (n : Int) : ∀ x ∈ intDigits n, x ≠ 101 := by
  intro x hx
  unfold intDigits at hx
  by_cases h : n < 0
  · simp only [h, if_true, if_pos, List.mem_cons] at hx
    rcases hx with rfl | hx
    · omega
    · exact natDigits_ne _ 101 (by omega) x hx
  · simp only [h, if_false, if_neg] at hx
    exact natDigits_ne _ 101 (by omega) x hx

lemma decodeIntBody_encode (n : Int) (rest : List Nat) :
    decodeIntBody (intDigits n ++ 101 :: rest) = .ok (n, rest) := by
  unfold decodeIntBody
  rw [readUntil_append _ _ _ (intDigits_ne_e n)]
  simp [pyInt_intDigits]

lemma decodeStrOrBytes_enc (s rest : List Nat) :
    decodeStrOrBytes (encodeStrB s ++ rest) =
      .ok (if utf8Valid s then .str s else .bytes s, rest) := by
  unfold decodeStrOrBytes encodeStrB
  have h : (natDigits s.length ++ 58 :: s) ++ rest =
      natDigits s.length ++ 58 :: (s ++ rest) := by simp
  rw [h, readUntil_append _ _ _ (natDigits_ne _ 58 (by omega))]
  have hnn : ¬((s.length : Int) < 0) := by omega
  simp [pyInt_natDigits, streamRead, hnn, List.take_left, List.drop_left]

/-! ### Shape of encoded values -/

lemma encodeStrB_cons (s : List Nat) :
    ∃ b t, encodeStrB s = b :: t ∧ isDigitByte b = true := by
  obtain ⟨h1, h2, _⟩ := natDigits_spec s.length
  cases hnd : natDigits s.length with
  | nil => exact absurd hnd h1
  | cons b t =>
    refine ⟨b, t ++ 58 :: s, by simp [encodeStrB, hnd], ?_⟩
    rw [hnd, List.all_cons] at h2
    exact ((Bool.and_eq_true _ _).mp h2).1

lemma encode_cons (v : BVal) : ∃ b t, encode v = b :: t ∧ b ≠ 101 := by
  cases v with
  | int n => exact ⟨105, intDigits n ++ [101], by simp [encode], by omega⟩
  | str s =>
    obtain ⟨b, t, he, hd⟩ := encodeStrB_cons s
    refine ⟨b, t, by simp [encode, he], ?_⟩
    simp [isDigitByte] at hd; omega
  | bytes bs =>
    obtain ⟨b, t, he, hd⟩ := encodeStrB_cons bs
    refine ⟨b, t, by simp [encode, he], ?_⟩
    simp [isDigitByte] at hd; omega
  | list vs => exact ⟨108, encodeItems vs ++ [101], by simp [encode], by omega⟩
  | dict ps =>
    exact ⟨100, encodeKVs (sortPairs (encPairs ps)) ++ [101], by simp [encode], by omega⟩

/-! ### The cost bound -/

lemma cost_pos (v : BVal) : 1 ≤ cost v := by
  cases v <;> simp [cost]

lemma costItems_pos (vs : List BVal) : 1 ≤ costItems vs := by
  cases vs with
  | nil => simp [costItems]
  | cons v vs =>
    simp only [costItems]
    omega

lemma costPairs_pos (ps : List (List Nat × BVal)) : 1 ≤ costPairs ps := by
  cases ps with
  | nil => simp [costPairs]
  | cons p ps => obtain ⟨k, v⟩ := p; simp [costPairs]; omega

lemma costPairs_perm {ps₁ ps₂ : List (List Nat × BVal)} (h : ps₁.Perm ps₂) :
    costPairs ps₁ = costPairs ps₂ := by
  induction h with
  | nil => rfl
  | cons x _ ih => obtain ⟨k, v⟩ := x; simp [costPairs, ih]
  | swap x y _ =>
    obtain ⟨k₁, v₁⟩ := x; obtain ⟨k₂, v₂⟩ := y
    simp [costPairs]; omega
  | trans _ _ ih₁ ih₂ => exact ih₁.trans ih₂

lemma cost_mem_items {v : BVal} {vs : List BVal} (h : v ∈ vs) :
    cost v < costItems vs := by
  induction vs with
  | nil => simp at h
  | cons w ws ih =>
    rcases List.mem_cons.mp h with rfl | h'
    · simp [costItems]; omega
    · have h2 := ih h'
      have h3 := cost_pos w
      simp [costItems]
      omega

lemma cost_mem_pairs {p : List Nat × BVal} {ps : List (List Nat × BVal)}
    (h : p ∈ ps) : cost p.2 < costPairs ps := by
  induction ps with
  | nil => simp at h
  | cons q qs ih =>
    obtain ⟨k, v⟩ := q
    rcases List.mem_cons.mp h with rfl | h'
    · simp [costPairs]; omega
    · have h2 := ih h'
      have h3 := cost_pos v
      simp [costPairs]
      omega

/-! ### The lexicographic byte order -/

lemma bytesLe_total (a b : List Nat) : bytesLe a b = true ∨ bytesLe b a = true := by
  induction a generalizing b with
  | nil => left; simp [bytesLe]
  | cons x xs ih =>
    cases b with
    | nil => right; simp [bytesLe]
    | cons y ys =>
      by_cases h1 : x < y
      · left; simp [bytesLe, h1]
      · by_cases h2 : y < x
        · right; simp [bytesLe, h2]
        · rcases ih ys with h | h
          · left; simp [bytesLe, h1, h2, h]
          · right; simp [bytesLe, h1, h2, h]

lemma bytesLe_trans {a b c : List Nat} (hab : bytesLe a b = true)
    (hbc : bytesLe b c = true) : bytesLe a c = true := by
  induction a generalizing b c with
  | nil => simp [bytesLe]
  | cons x xs ih =>
    cases b with
    | nil => simp [bytesLe] at hab
    | cons y ys =>
      cases c with
      | nil => simp [bytesLe] at hbc
      | cons z zs =>
        simp only [bytesLe] at hab hbc ⊢
        split_ifs at hab hbc ⊢ <;>
          first
          | rfl
          | omega
          | (exact ih hab hbc)

lemma bytesLt_asymm {a b : List Nat} (hab : bytesLt a b = true)
    (hba : bytesLt b a = true) : False := by
  induction a generalizing b with
  | nil =>
    cases b with
    | nil => simp [bytesLt] at hab
    | cons y ys => simp [bytesLt] at hba
  | cons x xs ih =>
    cases b with
    | nil => simp [bytesLt] at hab
    | cons y ys =>
      simp only [bytesLt] at hab hba
      split_ifs at hab hba <;>
        first
        | omega
        | (exact ih hab hba)

lemma bytesLt_of_le_of_ne {a b : List Nat} (hle : bytesLe a b = true)
    (hne : a ≠ b) : bytesLt a b = true := by
  induction a generalizing b with
  | nil =>
    cases b with
    | nil => exact absurd rfl hne
    | cons y ys => simp [bytesLt]
  | cons x xs ih =>
    cases b with
    | nil => simp [bytesLe] at hle
    | cons y ys =>
      simp only [bytesLe] at hle
      simp only [bytesLt]
      split_ifs at hle ⊢ with h1 h2
      · rfl
      · have hxy : x = y := by omega
        subst hxy
        exact ih hle (fun hh => hne (by rw [hh]))

instance {α : Type} : IsTotal (List Nat × α) keyLe :=
  ⟨fun a b => bytesLe_total a.1 b.1⟩

instance {α : Type} : IsTrans (List Nat × α) keyLe :=
  ⟨fun _ _ _ hab hbc => bytesLe_trans hab hbc⟩

instance {α : Type} : IsAntisymm (List Nat × α) keyLt :=
  ⟨fun _ _ hab hba => absurd hab (fun h => bytesLt_asymm h hba)⟩

/-! ### Sorting dictionary entries -/

lemma orderedInsert_map {α β : Type} (f : α → β) (p : List Nat × α)
    (l : List (List Nat × α)) :
    List.orderedInsert keyLe (p.1, f p.2)
        (l.map (fun q => (q.1, f q.2))) =
      (List.orderedInsert keyLe p l).map (fun q => (q.1, f q.2)) := by
  induction l with
  | nil => simp
  | cons q l ih =>
    by_cases h : keyLe p q
    · have h' : keyLe (p.1, f p.2) (q.1, f q.2) := h
      simp [List.orderedInsert, h, h']
    · have h' : ¬keyLe (p.1, f p.2) (q.1, f q.2) := h
      simp [List.orderedInsert, h, h', ih]

lemma sortPairs_map {α β : Type} (f : α → β) (l : List (List Nat × α)) :
    sortPairs (l.map (fun q => (q.1, f q.2))) =
      (sortPairs l).map (fun q => (q.1, f q.2)) := by
  unfold sortPairs
  induction l with
  | nil => simp
  | cons q l ih =>
    simp only [List.map_cons, List.insertionSort, ih]
    exact orderedInsert_map f q (List.insertionSort keyLe l)

lemma sortPairs_perm {α : Type} (l : List (List Nat × α)) :
    (sortPairs l).Perm l :=
  List.perm_insertionSort keyLe l

lemma encPairs_eq_map (ps : List (List Nat × BVal)) :
    encPairs ps = ps.map (fun q => (q.1, encode q.2)) := by
  induction ps with
  | nil => rfl
  | cons p ps ih => obtain ⟨k, v⟩ := p; simp [encPairs, ih]

lemma canonPairs_eq_map (ps : List (List Nat × BVal)) :
    canonPairs ps = ps.map (fun q => (q.1, canon q.2)) := by
  induction ps with
  | nil => rfl
  | cons p ps ih => obtain ⟨k, v⟩ := p; simp [canonPairs, ih]

lemma sortPairs_encPairs (ps : List (List Nat × BVal)) :
    sortPairs (encPairs ps) = encPairs (sortPairs ps) := by
  rw [encPairs_eq_map, encPairs_eq_map, sortPairs_map]

lemma sortPairs_canonPairs (ps : List (List Nat × BVal)) :
    sortPairs (canonPairs ps) = canonPairs (sortPairs ps) := by
  rw [canonPairs_eq_map, canonPairs_eq_map, sortPairs_map]

/-! ### Well-formedness transfer -/

lemma WFitems_iff (vs : List BVal) :
    WFitems vs = true ↔ ∀ v ∈ vs, WFb v = true := by
  induction vs with
  | nil => simp [WFitems]
  | cons v vs ih => simp [WFitems, ih]

lemma WFpairs_iff (ps : List (List Nat × BVal)) :
    WFpairs ps = true ↔ ∀ p ∈ ps, WFb p.2 = true := by
  induction ps with
  | nil => simp [WFpairs]
  | cons p ps ih =>
    obtain ⟨k, v⟩ := p
    simp [WFpairs, ih]

lemma noDupKeys_iff {α : Type} (ps : List (List Nat × α)) :
    noDupKeys ps = true ↔ (ps.map Prod.fst).Nodup := by
  induction ps with
  | nil => simp [noDupKeys]
  | cons p ps ih =>
    obtain ⟨k, v⟩ := p
    simp only [noDupKeys, Bool.and_eq_true, Bool.not_eq_true', List.map_cons,
      List.nodup_cons, ih, List.any_eq_false, List.mem_map]
    constructor
    · rintro ⟨h1, h2⟩
      refine ⟨?_, h2⟩
      rintro ⟨q, hq, hk⟩
      have := h1 q hq
      simp [hk] at this
    · rintro ⟨h1, h2⟩
      refine ⟨?_, h2⟩
      intro q hq
      intro hk
      exact h1 ⟨q, hq, by simpa using hk⟩

/-! ### Fuel is covered by twice the encoded length -/

lemma costItems_le (vs : List BVal)
    (ih : ∀ v ∈ vs, cost v + 1 ≤ 2 * (encode v).length) :
    costItems vs ≤ 2 * (encodeItems vs).length + 2 := by
  induction vs with
  | nil => simp [costItems, encodeItems]
  | cons v vs ihs =>
    have h1 := ih v (by simp)
    have h2 := ihs (fun w hw => ih w (by simp [hw]))
    simp only [costItems, encodeItems, List.length_append]
    omega

lemma costPairs_le (ps : List (List Nat × BVal))
    (ih : ∀ p ∈ ps, cost p.2 + 1 ≤ 2 * (encode p.2).length) :
    costPairs ps ≤ 2 * (encodeKVs (encPairs ps)).length + 2 := by
  induction ps with
  | nil => simp [costPairs, encPairs, encodeKVs]
  | cons p ps ihs =>
    obtain ⟨k, v⟩ := p
    have h1 : cost v + 1 ≤ 2 * (encode v).length := ih (k, v) (by simp)
    have h2 := ihs (fun q hq => ih q (by simp [hq]))
    simp only [costPairs, encPairs, encodeKVs, List.length_append]
    omega

lemma encodeKVs_length_perm {l₁ l₂ : List (List Nat × List Nat)}
    (h : l₁.Perm l₂) : (encodeKVs l₁).length = (encodeKVs l₂).length := by
  induction h with
  | nil => rfl
  | cons x _ ih =>
    obtain ⟨k, ev⟩ := x
    simp [encodeKVs, ih]
  | swap x y _ =>
    obtain ⟨k₁, e₁⟩ := x; obtain ⟨k₂, e₂⟩ := y
    simp [encodeKVs]
    omega
  | trans _ _ ih₁ ih₂ => exact ih₁.trans ih₂

lemma cost_le_len_aux : ∀ n v, cost v ≤ n → cost v + 1 ≤ 2 * (encode v).length := by
  intro n
  induction n using Nat.strong_induction_on with
  | _ n ih =>
    intro v hv
    cases v with
    | int m =>
      obtain ⟨hne, _, _⟩ := natDigits_spec m.natAbs
      have hlen : 1 ≤ (intDigits m).length := by
        unfold intDigits
        by_cases h : m < 0
        · simp [h]
        · rw [if_neg h]
          cases hd : natDigits m.natAbs with
          | nil => exact absurd hd hne
          | cons a t => simp [hd]
      simp only [cost, encode, List.length_cons, List.length_append]
      omega
    | str s =>
      simp only [cost, encode, encodeStrB, List.length_append, List.length_cons]
      omega
    | bytes b =>
      simp only [cost, encode, encodeStrB, List.length_append, List.length_cons]
      omega
    | list vs =>
      have hmem : ∀ w ∈ vs, cost w + 1 ≤ 2 * (encode w).length := by
        intro w hw
        have hlt : cost w < cost (.list vs) := by
          simp only [cost]
          have := cost_mem_items hw
          omega
        exact ih (cost w) (by omega) w (le_refl _)
      have := costItems_le vs hmem
      simp only [cost, encode, List.length_cons, List.length_append]
      omega
    | dict ps =>
      have hmem : ∀ p ∈ ps, cost p.2 + 1 ≤ 2 * (encode p.2).length := by
        intro p hp
        have hlt : cost p.2 < cost (.dict ps) := by
          simp only [cost]
          have := cost_mem_pairs hp
          omega
        exact ih (cost p.2) (by omega) p.2 (le_refl _)
      have hb := costPairs_le ps hmem
      have hperm : (encodeKVs (encPairs ps)).length =
          (encodeKVs (sortPairs (encPairs ps))).length :=
        encodeKVs_length_perm (sortPairs_perm (encPairs ps)).symm
      simp only [cost, encode, List.length_cons, List.length_append]
      omega

lemma cost_le_len (v : BVal) : cost v + 1 ≤ 2 * (encode v).length :=
  cost_le_len_aux (cost v) v (le_refl _)

/-! ### Decoding an encoded value -/

lemma decodeValF_strB (f : Nat) (hf : 1 ≤ f) (s X : List Nat) :
    decodeValF f (encodeStrB s ++ X) =
      .ok (if utf8Valid s then .str s else .bytes s, X) := by
  obtain ⟨b, t, he, hd⟩ := encodeStrB_cons s
  have hb : 48 ≤ b ∧ b ≤ 57 := by simpa [isDigitByte] using hd
  cases f with
  | zero => omega
  | succ f =>
    have hshape : encodeStrB s ++ X = b :: (t ++ X) := by simp [he]
    rw [hshape]
    simp only [decodeValF]
    rw [if_neg (by omega : ¬b = 105), if_neg (by omega : ¬b = 108),
        if_neg (by omega : ¬b = 100), if_pos hd, ← hshape, decodeStrOrBytes_enc]

/-- The induction statement of the round-trip theorem: decoding the
encoding of `v` (with any trailing bytes) succeeds, produces the canonical
form of `v`, and stops exactly at the trailing bytes. -/
def RTP (v : BVal) : Prop :=
  ∀ fuel rest, cost v ≤ fuel → WFb v = true →
    decodeValF fuel (encode v ++ rest) = .ok (canon v, rest)

lemma dictInsert_append (acc : List (List Nat × BVal)) (k : List Nat) (v : BVal)
    (h : ∀ q ∈ acc, q.1 ≠ k) : dictInsert acc k v = acc ++ [(k, v)] := by
  induction acc with
  | nil => rfl
  | cons q acc ih =>
    obtain ⟨k', v'⟩ := q
    have hne : k' ≠ k := h (k', v') (by simp)
    simp [dictInsert, hne, ih (fun q hq => h q (by simp [hq]))]

lemma RT_items (vs : List BVal) (ih : ∀ v ∈ vs, RTP v) :
    ∀ fuel acc rest, costItems vs ≤ fuel → WFitems vs = true →
      decodeListF fuel acc (encodeItems vs ++ 101 :: rest) =
        .ok (acc ++ canonItems vs, rest) := by
  induction vs with
  | nil =>
    intro fuel acc rest hf _
    cases fuel with
    | zero => simp [costItems] at hf
    | succ f => simp [encodeItems, decodeListF, canonItems]
  | cons v vs ihs =>
    intro fuel acc rest hf hw
    simp only [costItems] at hf
    have hcv := cost_pos v
    have hcvs := costItems_pos vs
    cases fuel with
    | zero => omega
    | succ f =>
      obtain ⟨b, t, he, hb⟩ := encode_cons v
      have hw2 : WFb v = true ∧ WFitems vs = true := by
        simpa [WFitems] using hw
      have hshape : encodeItems (v :: vs) ++ 101 :: rest =
          b :: (t ++ (encodeItems vs ++ 101 :: rest)) := by
        simp [encodeItems, he]
      rw [hshape]
      simp only [decodeListF]
      rw [if_neg hb]
      have hback : b :: (t ++ (encodeItems vs ++ 101 :: rest)) =
          encode v ++ (encodeItems vs ++ 101 :: rest) := by simp [he]
      rw [hback, ih v (by simp) f _ (by omega) hw2.1]
      show decodeListF f (acc ++ [canon v]) (encodeItems vs ++ 101 :: rest) = _
      rw [ihs (fun w hw' => ih w (by simp [hw'])) f (acc ++ [canon v]) rest
        (by omega) hw2.2]
      simp [canonItems]

lemma RT_pairs (ps : List (List Nat × BVal)) (ih : ∀ p ∈ ps, RTP p.2) :
    ∀ fuel acc rest, costPairs ps ≤ fuel →
      (∀ p ∈ ps, utf8Valid p.1 = true) → WFpairs ps = true →
      (ps.map Prod.fst).Nodup →
      (∀ p ∈ ps, ∀ q ∈ acc, q.1 ≠ p.1) →
      decodeDictF fuel acc (encodeKVs (encPairs ps) ++ 101 :: rest) =
        .ok (acc ++ canonPairs ps, rest) := by
  induction ps with
  | nil =>
    intro fuel acc rest hf _ _ _ _
    cases fuel with
    | zero => simp [costPairs] at hf
    | succ f => simp [encPairs, encodeKVs, decodeDictF, canonPairs]
  | cons p ps ihs =>
    obtain ⟨k, v⟩ := p
    intro fuel acc rest hf hkeys hw hnd hdisj
    simp only [costPairs] at hf
    have hcv := cost_pos v
    have hcps := costPairs_pos ps
    cases fuel with
    | zero => omega
    | succ f =>
      obtain ⟨b, t, he, hd⟩ := encodeStrB_cons k
      have hb101 : b ≠ 101 := by simp [isDigitByte] at hd; omega
      have hshape : encodeKVs (encPairs ((k, v) :: ps)) ++ 101 :: rest =
          b :: (t ++ (encode v ++ (encodeKVs (encPairs ps) ++ 101 :: rest))) := by
        simp [encPairs, encodeKVs, he]
      rw [hshape]
      simp only [decodeDictF]
      rw [if_neg hb101]
      have hback : b :: (t ++ (encode v ++ (encodeKVs (encPairs ps) ++ 101 :: rest))) =
          encodeStrB k ++ (encode v ++ (encodeKVs (encPairs ps) ++ 101 :: rest)) := by
        simp [he]
      have hk : utf8Valid k = true := hkeys (k, v) (by simp)
      rw [hback, decodeValF_strB f (by omega) k _, hk]
      show (decodeValF f (encode v ++ (encodeKVs (encPairs ps) ++ 101 :: rest))).bind
          (fun q => decodeDictF f (dictInsert acc k q.1) q.2) = _
      have hwv : WFb v = true ∧ WFpairs ps = true := by
        simpa [WFpairs] using hw
      have hrtp : RTP v := ih (k, v) (by simp)
      have hv : decodeValF f (encode v ++ (encodeKVs (encPairs ps) ++ 101 :: rest)) =
          .ok (canon v, encodeKVs (encPairs ps) ++ 101 :: rest) :=
        hrtp f _ (by omega) hwv.1
      rw [hv]
      show decodeDictF f (dictInsert acc k (canon v))
          (encodeKVs (encPairs ps) ++ 101 :: rest) = _
      have hknotin : k ∉ ps.map Prod.fst := by
        simp only [List.map_cons, List.nodup_cons] at hnd
        exact hnd.1
      rw [dictInsert_append acc k (canon v) (fun q hq => hdisj (k, v) (by simp) q hq)]
      rw [ihs (fun q hq => ih q (by simp [hq])) f (acc ++ [(k, canon v)]) rest
        (by omega)
        (fun q hq => hkeys q (by simp [hq]))
        hwv.2
        (by simp only [List.map_cons, List.nodup_cons] at hnd; exact hnd.2)
        ?_]
      · simp [canonPairs]
      · intro p hp q hq
        rcases List.mem_append.mp hq with hq' | hq'
        · exact hdisj p (by simp [hp]) q hq'
        · have hqk : q = (k, canon v) := by simpa using hq'
          subst hqk
          intro hcontra
          exact hknotin (by
            rw [show k = p.1 from hcontra]
            exact List.mem_map_of_mem _ hp)

lemma RT_val_aux : ∀ n v, cost v ≤ n → RTP v := by
  intro n
  induction n using Nat.strong_induction_on with
  | _ n ihn =>
    intro v hv fuel rest hf hw
    cases v with
    | int m =>
      cases fuel with
      | zero => simp [cost] at hf
      | succ f =>
        have hshape : encode (.int m) ++ rest =
            105 :: (intDigits m ++ 101 :: rest) := by simp [encode]
        rw [hshape]
        simp only [decodeValF, if_true]
        rw [decodeIntBody_encode]
        rfl
    | str s =>
      have hvs : utf8Valid s = true := by simpa [WFb] using hw
      have h1 : 1 ≤ fuel := le_trans (by simp [cost]) hf
      have hs : encode (.str s) = encodeStrB s := by simp [encode]
      rw [hs, decodeValF_strB fuel h1 s rest, hvs]
      simp [canon]
    | bytes bs =>
      have h1 : 1 ≤ fuel := le_trans (by simp [cost]) hf
      have hs : encode (.bytes bs) = encodeStrB bs := by simp [encode]
      rw [hs, decodeValF_strB fuel h1 bs rest]
      simp [canon]
    | list vs =>
      simp only [cost] at hf hv
      have hpos := costItems_pos vs
      cases fuel with
      | zero => omega
      | succ f =>
        have hshape : encode (.list vs) ++ rest =
            108 :: (encodeItems vs ++ 101 :: rest) := by simp [encode]
        rw [hshape]
        simp only [decodeValF, if_true]
        have hmem : ∀ w ∈ vs, RTP w := by
          intro w hw'
          have hlt : cost w < n := by
            have := cost_mem_items hw'
            omega
          exact ihn (cost w) hlt w (le_refl _)
        rw [RT_items vs hmem f [] rest (by omega) (by simpa [WFb] using hw)]
        simp only [canon, List.nil_append]
        rfl
    | dict ps =>
      simp only [cost] at hf hv
      have hpos := costPairs_pos ps
      cases fuel with
      | zero => omega
      | succ f =>
        have hshape : encode (.dict ps) ++ rest =
            100 :: (encodeKVs (sortPairs (encPairs ps)) ++ 101 :: rest) := by
          simp [encode]
        rw [hshape]
        simp only [decodeValF, if_true]
        rw [sortPairs_encPairs]
        have hw3 : noDupKeys ps = true ∧
            (ps.all fun p => utf8Valid p.1) = true ∧ WFpairs ps = true := by
          simpa [WFb, Bool.and_eq_true, and_assoc] using hw
        have hqperm : (sortPairs ps).Perm ps := sortPairs_perm ps
        have hmem : ∀ p ∈ sortPairs ps, RTP p.2 := by
          intro p hp
          have hp' : p ∈ ps := hqperm.mem_iff.mp hp
          have hlt : cost p.2 < n := by
            have := cost_mem_pairs hp'
            omega
          exact ihn (cost p.2) hlt p.2 (le_refl _)
        have hndps : (ps.map Prod.fst).Nodup := (noDupKeys_iff ps).mp hw3.1
        have hndq : ((sortPairs ps).map Prod.fst).Nodup :=
          ((hqperm.map Prod.fst).nodup_iff).mpr hndps
        rw [RT_pairs (sortPairs ps) hmem f [] rest
          (by rw [costPairs_perm hqperm]; omega)
          (fun p hp => by
            have := (List.all_eq_true.mp hw3.2.1) p (hqperm.mem_iff.mp hp)
            simpa using this)
          ((WFpairs_iff _).mpr (fun p hp =>
            (WFpairs_iff ps).mp hw3.2.2 p (hqperm.mem_iff.mp hp)))
          hndq
          (by simp)]
        simp only [canon, sortPairs_canonPairs, List.nil_append]
        rfl

lemma RT_val (v : BVal) : RTP v :=
  RT_val_aux (cost v) v (le_refl _)

lemma decode_encode_canon (v : BVal) (h : WFb v = true) :
    decode (encode v) = .ok (canon v) := by
  unfold decode
  have h1 := RT_val v (2 * (encode v).length + 1) []
    (by have := cost_le_len v; omega) h
  rw [List.append_nil] at h1
  rw [h1]
  rfl

/-! ## KRPC protocol layer (orm.py, server.py)

Protocol keys and names as ASCII byte strings. -/

def strT : List Nat := [116]
def strY : List Nat := [121]
def strQ : List Nat := [113]
def strA : List Nat := [97]
def strR : List Nat := [114]
def strE : List Nat := [101]
def strId : List Nat := [105, 100]
def strTarget : List Nat := [116, 97, 114, 103, 101, 116]
def strNodes : List Nat := [110, 111, 100, 101, 115]
def strPing : List Nat := [112, 105, 110, 103]
def strFindNode : List Nat := [102, 105, 110, 100, 95, 110, 111, 100, 101]
def strGetPeers : List Nat := [103, 101, 116, 95, 112, 101, 101, 114, 115]
def strAnnouncePeer : List Nat :=
  [97, 110, 110, 111, 117, 110, 99, 101, 95, 112, 101, 101, 114]
def strMethodUnknown : List Nat :=
  [77, 101, 116, 104, 111, 100, 32, 85, 110, 107, 110, 111, 119, 110]

/-- A decoded KRPC packet: a Python dictionary. -/
abbrev Dict := List (List Nat × BVal)

/-- Python `packet[key]`: the value at the key, or `KeyError`. -/
def dGet (d : Dict) (k : List Nat) : Except Err BVal :=
  match d with
  | [] => .error (.keyError k)
  | (k', v) :: rest => if k' = k then .ok v else dGet rest k

/-- Does the dictionary contain the key? -/
def dHasKey (d : Dict) (k : List Nat) : Bool :=
  match d with
  | [] => false
  | (k', _) :: rest => k' == k || dHasKey rest k

/-- Python `decoded_value == "literal"` for a string literal: true exactly
when the decoded value is a text string with those bytes (a byte string or
any other type never compares equal to `str`). -/
def pyEqStr (v : BVal) (s : List Nat) : Bool :=
  match v with
  | .str s' => s' == s
  | _ => false

/-- `is_ping_packet` / `is_find_node_packet` / `is_get_peers_packet` /
`is_announce_peer_packet`: `packet["y"] == "q" and packet["q"] == name`.
The `and` short-circuits: `packet["q"]` is read only when
`packet["y"] == "q"`, and a missing key raises `KeyError`. -/
def isMethodPacket (p : Dict) (method : List Nat) : Except Err Bool := do
  let y ← dGet p strY
  if pyEqStr y strQ then
    let q ← dGet p strQ
    .ok (pyEqStr q method)
  else
    .ok false

/-- `handle_ping`: send one datagram
`{"t": packet["t"], "y": "r", "r": {"id": NODE_ID}}` (bencoded). -/
def handle_ping (nodeId : List Nat) (p : Dict) : Except Err (List (List Nat)) := do
  let t ← dGet p strT
  .ok [encode (.dict [(strT, t), (strY, .str strR),
    (strR, .dict [(strId, .bytes nodeId)])])]

/-- `handle_find_node`: send one datagram
`{"t": packet["t"], "y": "r", "r": {"id": NODE_ID, "nodes": []}}`. -/
def handle_find_node (nodeId : List Nat) (p : Dict) :
    Except Err (List (List Nat)) := do
  let t ← dGet p strT
  .ok [encode (.dict [(strT, t), (strY, .str strR),
    (strR, .dict [(strId, .bytes nodeId), (strNodes, .list [])])])]

/-- `handle_error`: send one datagram
`{"t": packet["t"], "y": "e", "e": [error_code, error_message]}`. -/
def handle_error (p : Dict) (code : Int) (msg : List Nat) :
    Except Err (List (List Nat)) := do
  let t ← dGet p strT
  .ok [encode (.dict [(strT, t), (strY, .str strE),
    (strE, .list [.int code, .str msg])])]

/-- The classification chain of `handle_query` after the datagram has been
decoded: try `ping`, `find_node`, `get_peers`, `announce_peer` in order,
fall through to the error handler.  The result is the list of reply
datagrams sent (`handle_get_peers` and `handle_announce_peer` are `pass`,
sending nothing); a raised exception (missing key) propagates. -/
def dispatchQuery (nodeId : List Nat) (packet : Dict) :
    Except Err (List (List Nat)) := do
  let ping ← isMethodPacket packet strPing
  if ping then handle_ping nodeId packet
  else do
    let fn ← isMethodPacket packet strFindNode
    if fn then handle_find_node nodeId packet
    else do
      let gp ← isMethodPacket packet strGetPeers
      if gp then .ok []
      else do
        let ap ← isMethodPacket packet strAnnouncePeer
        if ap then .ok []
        else handle_error packet 204 strMethodUnknown

/-- `handle_query`, the server dispatch for one received datagram: decode
it as a dictionary (`decode_dict`), then classify and dispatch; a decode
failure propagates out of the handler. -/
def handle_query (nodeId : List Nat) (data : List Nat) :
    Except Err (List (List Nat)) := do
  let packet ← decode_dict data
  dispatchQuery nodeId packet

/-- `Query.__init__` + `Query.serialized`: `self.__dict__` holds keys
`t`, `y`, `q`, `a` in insertion order (`t` is 4 random bytes, `y` is `"q"`,
`q` the method name, `a` the argument dictionary); `encode_dict` sorts the
keys when serializing. -/
def querySerialized (tid method : List Nat) (args : Dict) : List Nat :=
  encode (.dict [(strT, .bytes tid), (strY, .str strQ),
    (strQ, .str method), (strA, .dict args)])

/-- The fields set by `Response.__init__`. -/
structure Response where
  id : BVal
  t : BVal
deriving Repr

/-- The fields set by `FindNodeResponse.__init__`. -/
structure FindNodeResponse where
  id : BVal
  t : BVal
  nodes : BVal
deriving Repr

/-- `Response.__init__`: `self.id = decoded["r"]["id"]` then
`self.t = decoded["t"]`.  A missing key raises `KeyError`; indexing
`decoded["r"]` when it is not a dictionary raises `TypeError`. -/
def mkResponse (decoded : Dict) : Except Err Response := do
  let r ← dGet decoded strR
  match r with
  | .dict rd => do
    let i ← dGet rd strId
    let t ← dGet decoded strT
    .ok ⟨i, t⟩
  | _ => .error .typeError

/-- `FindNodeResponse.__init__`: `Response.__init__` then
`self.nodes = decoded["r"]["nodes"]`. -/
def mkFindNodeResponse (decoded : Dict) : Except Err FindNodeResponse := do
  let base ← mkResponse decoded
  let r ← dGet decoded strR
  match r with
  | .dict rd => do
    let ns ← dGet rd strNodes
    .ok ⟨base.id, base.t, ns⟩
  | _ => .error .typeError

/-- `Session._send_query`: write the serialized query to the socket, then
take the next datagram received within the 5-second timeout — whichever
datagram that is, with no transaction-ID check — and decode it as a
dictionary.  The queue of incoming datagrams stands for the socket; an
empty queue models the timeout elapsing with no datagram.  Returns the
decoded packet and the datagrams left unread. -/
def sendQuery (serialized : List Nat) (incoming : List (List Nat)) :
    Except Err (Dict × List (List Nat)) :=
  match serialized, incoming with
  | _, [] => .error .timeout
  | _, d :: rest => (decode_dict d).map (fun p => (p, rest))

/-- `Session.ping`: send a `PingQuery`, await one datagram, wrap it as a
`Response`.  `asyncio.TimeoutError` is re-raised as `TimeoutError`; every
other exception propagates unchanged. -/
def sessionPing (nodeId tid : List Nat) (incoming : List (List Nat)) :
    Except Err (Response × List (List Nat)) := do
  let (decoded, left) ←
    sendQuery (querySerialized tid strPing [(strId, .bytes nodeId)]) incoming
  let r ← mkResponse decoded
  .ok (r, left)

/-- `Session.find_node`: send a `FindNodeQuery` (arguments `id`, `target`),
await one datagram, wrap it as a `FindNodeResponse`. -/
def sessionFindNode (nodeId tid target : List Nat) (incoming : List (List Nat)) :
    Except Err (FindNodeResponse × List (List Nat)) := do
  let (decoded, left) ← sendQuery
    (querySerialized tid strFindNode
      [(strId, .bytes nodeId), (strTarget, .bytes target)]) incoming
  let r ← mkFindNodeResponse decoded
  .ok (r, left)

/-! ## Node.bootstrap -/

/-- How one bootstrap address behaves: it answers the ping with a datagram,
it stays silent until the timeout, or the transport fails (`OSError`). -/
inductive Outcome where
  | reply (d : List Nat)
  | timeout
  | oserror

/-- The fixed bootstrap address list. -/
def BOOTSTRAP_NODES : List (String × Nat) :=
  [("router.bittorrent.com", 6881), ("dht.transmissionbt.com", 6881),
   ("127.0.0.1", 6881)]

/-- The loop body of `Node.bootstrap` over a list of addresses: open a
scoped session to each address in order and ping it; on success append the
address to the result; `TimeoutError` and `OSError` are caught and the
loop continues; any other exception (decode failure, `KeyError`, ...)
propagates and aborts the whole bootstrap.  `outcomes` describes each
address's behavior. -/
def bootstrapGo (nodeId tid : List Nat) (outcomes : String × Nat → Outcome) :
    List (String × Nat) → Except Err (List (String × Nat))
  | [] => .ok []
  | addr :: rest =>
    match outcomes addr with
    | .timeout => bootstrapGo nodeId tid outcomes rest
    | .oserror => bootstrapGo nodeId tid outcomes rest
    | .reply d =>
      match sessionPing nodeId tid [d] with
      | .ok _ => (bootstrapGo nodeId tid outcomes rest).map (addr :: ·)
      | .error .timeout => bootstrapGo nodeId tid outcomes rest
      | .error e => .error e

/-- `Node.bootstrap`: probe the fixed address list. -/
def bootstrap (nodeId tid : List Nat) (outcomes : String × Nat → Outcome) :
    Except Err (List (String × Nat)) :=
  bootstrapGo nodeId tid outcomes BOOTSTRAP_NODES

/-- Does this address answer with a datagram at all? -/
def isReply : Outcome → Bool
  | .reply _ => true
  | _ => false

/-- Does the session-level ping processing of this reply datagram succeed? -/
def pingOk (nodeId tid d : List Nat) : Bool :=
  match sessionPing nodeId tid [d] with
  | .ok _ => true
  | .error _ => false

/-! ### Shared lemmas about sorting, decoding and dictionary access -/

lemma exceptBind_ok {α β : Type} (a : α) (f : α → Except Err β) :
    (Except.ok a : Except Err α) >>= f = f a := rfl

lemma exceptBind_err {α β : Type} (e : Err) (f : α → Except Err β) :
    (Except.error e : Except Err α) >>= f = Except.error e := rfl

lemma dGet_of_hasKey_false {d : Dict} {k : List Nat}
    (h : dHasKey d k = false) : dGet d k = .error (.keyError k) := by
  induction d with
  | nil => rfl
  | cons p rest ih =>
    obtain ⟨k', v⟩ := p
    simp only [dHasKey, Bool.or_eq_false_iff, beq_eq_false_iff_ne] at h
    simp only [dGet, if_neg h.1]
    exact ih h.2

lemma sorted_keyLt {α : Type} (l : List (List Nat × α))
    (hs : List.Sorted keyLe l) (hn : (l.map Prod.fst).Nodup) :
    List.Sorted keyLt l := by
  induction l with
  | nil => exact List.sorted_nil
  | cons p t ih =>
    rw [List.sorted_cons] at hs
    rw [List.map_cons, List.nodup_cons] at hn
    rw [List.sorted_cons]
    refine ⟨?_, ih hs.2 hn.2⟩
    intro q hq
    have hle : keyLe p q := hs.1 q hq
    have hne : p.1 ≠ q.1 := by
      intro hcontra
      exact hn.1 (hcontra ▸ List.mem_map_of_mem Prod.fst hq)
    exact bytesLt_of_le_of_ne hle hne

lemma sortPairs_sorted {α : Type} (l : List (List Nat × α)) :
    List.Sorted keyLe (sortPairs l) :=
  List.sorted_insertionSort keyLe l

lemma sortPairs_eq_of_perm {α : Type} {l₁ l₂ : List (List Nat × α)}
    (h : l₁.Perm l₂) (hn : (l₁.map Prod.fst).Nodup) :
    sortPairs l₁ = sortPairs l₂ := by
  have hn₂ : (l₂.map Prod.fst).Nodup := ((h.map Prod.fst).nodup_iff).mp hn
  have hns₁ : ((sortPairs l₁).map Prod.fst).Nodup :=
    (((sortPairs_perm l₁).map Prod.fst).nodup_iff).mpr hn
  have hns₂ : ((sortPairs l₂).map Prod.fst).Nodup :=
    (((sortPairs_perm l₂).map Prod.fst).nodup_iff).mpr hn₂
  exact List.eq_of_perm_of_sorted
    ((sortPairs_perm l₁).trans (h.trans (sortPairs_perm l₂).symm))
    (sorted_keyLt _ (sortPairs_sorted l₁) hns₁)
    (sorted_keyLt _ (sortPairs_sorted l₂) hns₂)

/-- Decoding an encoded well-formed dictionary with the `decode_dict`
entry point yields exactly the canonicalized (sorted) entry list. -/
lemma decode_dict_encode (ps : Dict) (h : WFb (.dict ps) = true) :
    decode_dict (encode (.dict ps)) = .ok (canonPairs (sortPairs ps)) := by
  have hw3 : noDupKeys ps = true ∧
      (ps.all fun p => utf8Valid p.1) = true ∧ WFpairs ps = true := by
    simpa [WFb, Bool.and_eq_true, and_assoc] using h
  have hqperm : (sortPairs ps).Perm ps := sortPairs_perm ps
  have hmem : ∀ p ∈ sortPairs ps, RTP p.2 := fun p _ => RT_val p.2
  have hndps : (ps.map Prod.fst).Nodup := (noDupKeys_iff ps).mp hw3.1
  have hndq : ((sortPairs ps).map Prod.fst).Nodup :=
    ((hqperm.map Prod.fst).nodup_iff).mpr hndps
  have hcost := cost_le_len (.dict ps)
  simp only [cost] at hcost
  have hlen : encode (.dict ps) =
      100 :: (encodeKVs (sortPairs (encPairs ps)) ++ [101]) := by simp [encode]
  unfold decode_dict
  rw [hlen]
  have htail : (100 :: (encodeKVs (sortPairs (encPairs ps)) ++ [101])).tail =
      encodeKVs (encPairs (sortPairs ps)) ++ 101 :: [] := by
    simp [sortPairs_encPairs]
  rw [htail]
  rw [RT_pairs (sortPairs ps) hmem _ [] []
    (by
      rw [costPairs_perm hqperm]
      have h2 : (encode (BVal.dict ps)).length =
          (encodeKVs (sortPairs (encPairs ps))).length + 2 := by
        rw [hlen]; simp
      simp only [List.length_cons, List.length_append]
      omega)
    (fun p hp => by
      have := (List.all_eq_true.mp hw3.2.1) p (hqperm.mem_iff.mp hp)
      simpa using this)
    ((WFpairs_iff _).mpr (fun p hp =>
      (WFpairs_iff ps).mp hw3.2.2 p (hqperm.mem_iff.mp hp)))
    hndq
    (by simp)]
  rfl

/-! ## Claim theorems -/

/-- C1 (as stated, refuted): `decode(encode(v))` is not always content-equal
to `v` with dictionary key order the only difference.  For the byte string
`b"a"`, whose content is valid UTF-8, the decoder's text-first heuristic
returns the text string `"a"` instead of the byte string — a type flip, not
a key-order difference. -/
theorem c1_roundtrip_exact_counterexample :
    decode (encode (.bytes [97])) = .ok (.str [97]) ∧
      BVal.str [97] ≠ BVal.bytes [97] :=
  ⟨rfl, fun h => nomatch h⟩

/-- C1 (amended): for every well-formed representable value `v`,
`decode(encode(v))` succeeds and returns the canonical form of `v`:
content-equal to `v` except that dictionary entries come back in ascending
key order and that a byte-string value whose bytes are valid UTF-8 comes
back as the text string with those bytes (the decoder's UTF-8-first
heuristic). -/
theorem c1_roundtrip_canonical (v : BVal) (h : WFb v = true) :
    decode (encode v) = .ok (canon v) :=
  decode_encode_canon v h

/-- Witness for C1: a dictionary built in descending key order with a
non-UTF-8 byte-string value round-trips to its key-sorted form. -/
theorem c1_roundtrip_canonical_witness :
    WFb (.dict [([98], .int 2), ([97], .bytes [200])]) = true ∧
      decode (encode (.dict [([98], .int 2), ([97], .bytes [200])])) =
        .ok (.dict [([97], .bytes [200]), ([98], .int 2)]) :=
  ⟨rfl, by
    rw [c1_roundtrip_canonical (.dict [([98], .int 2), ([97], .bytes [200])]) rfl]
    rfl⟩

/-- C2 (refuted on the code): `Session._send_query` accepts the next
received datagram as the answer with no transaction-ID check.  A ping sent
with transaction ID `01 02 03 04` whose first received datagram is a reply
carrying transaction ID `ff ff ff ff` is accepted and returned as the
response (its `t` field is the mismatched ID), instead of being discarded. -/
theorem c2_mismatched_tid_accepted :
    sessionPing [9] [1, 2, 3, 4]
        [encode (.dict [(strT, .bytes [255, 255, 255, 255]), (strY, .str strR),
          (strR, .dict [(strId, .bytes [200])])])] =
      .ok (⟨.bytes [200], .bytes [255, 255, 255, 255]⟩, []) ∧
      ([255, 255, 255, 255] : List Nat) ≠ [1, 2, 3, 4] :=
  ⟨rfl, by decide⟩

/-- C3: `decode(b"i10")` fails (unterminated integer) and `decode(b"x")`
fails (invalid marker byte), as the claim states; but `decode(b"5:abc")`
does not fail: `stream.read(5)` silently returns the 3 available bytes and
the decoder returns the text string `"abc"`. -/
theorem c3_malformed_inputs :
    decode [105, 49, 48] = .error .unterminatedInt ∧
      decode [120] = .error (.invalidByte 120) ∧
      decode [53, 58, 97, 98, 99] = .ok (.str [97, 98, 99]) :=
  ⟨rfl, rfl, rfl⟩

/-- C6: encoding a dictionary emits its keys in strictly ascending byte
order regardless of the insertion order of its entries: two entry lists
that are permutations of each other (with distinct keys, as in every
Python dictionary) encode to identical bytes, and the emitted key sequence
is pairwise strictly increasing. -/
theorem c6_encode_dict_canonical_order (ps₁ ps₂ : Dict) (hperm : ps₁.Perm ps₂)
    (hnd : (ps₁.map Prod.fst).Nodup) :
    encode (.dict ps₁) = encode (.dict ps₂) ∧
      List.Pairwise (fun a b : List Nat => bytesLt a b = true)
        ((sortPairs (encPairs ps₁)).map Prod.fst) := by
  have hperm' : (encPairs ps₁).Perm (encPairs ps₂) := by
    rw [encPairs_eq_map, encPairs_eq_map]
    exact hperm.map _
  have hkeys : (encPairs ps₁).map Prod.fst = ps₁.map Prod.fst := by
    rw [encPairs_eq_map]; simp
  have hnd1 : ((encPairs ps₁).map Prod.fst).Nodup := by rw [hkeys]; exact hnd
  constructor
  · have hsort := sortPairs_eq_of_perm hperm' hnd1
    simp [encode, hsort]
  · have hsorted := sorted_keyLt _ (sortPairs_sorted (encPairs ps₁))
      ((((sortPairs_perm (encPairs ps₁)).map Prod.fst).nodup_iff).mpr hnd1)
    exact (List.pairwise_map).mpr hsorted

/-- Witness for C6: two insertion orders of `{"b": 2, "a": 1}` encode to
the same bytes. -/
theorem c6_encode_dict_canonical_order_witness :
    (([([98], BVal.int 2), ([97], BVal.int 1)] : Dict)).Perm
        [([97], BVal.int 1), ([98], BVal.int 2)] ∧
      (([([98], BVal.int 2), ([97], BVal.int 1)] : Dict).map Prod.fst).Nodup ∧
      encode (.dict [([98], .int 2), ([97], .int 1)]) =
        encode (.dict [([97], .int 1), ([98], .int 2)]) :=
  ⟨List.Perm.swap _ _ _, by decide,
    (c6_encode_dict_canonical_order [([98], .int 2), ([97], .int 1)]
      [([97], .int 1), ([98], .int 2)] (List.Perm.swap _ _ _) (by decide)).1⟩

/-- C7 (as stated, refuted): `decode(b"0:")` does not return the byte
string `b""`: the empty byte sequence is valid UTF-8, so the decoder's
text-first heuristic returns the empty text string instead. -/
theorem c7_empty_bytes_counterexample :
    decode [48, 58] = .ok (.str []) ∧ BVal.str [] ≠ BVal.bytes [] :=
  ⟨rfl, fun h => nomatch h⟩

/-- C7 (amended): `encode(b"")` is `b"0:"`, and `decode(b"0:")` succeeds
returning the empty *text* string (same byte content as `b""`, but the
text variant, by the UTF-8-first heuristic). -/
theorem c7_empty_bytes :
    encode (.bytes []) = [48, 58] ∧ decode [48, 58] = .ok (.str []) :=
  ⟨rfl, rfl⟩

/-- C9: the typed decode entry points skip the first byte unconditionally
instead of checking it is the expected marker: for every byte `b` and
payload `p`, `decode_int`, `decode_list` and `decode_dict` treat
`bytes([b]) + p` exactly as they treat the properly marked input; in
particular `decode_int(b"x5e")` returns `5`. -/
theorem c9_skip_marker_unchecked (b : Nat) (p : List Nat) :
    decode_int (b :: p) = decode_int (105 :: p) ∧
      decode_list (b :: p) = decode_list (108 :: p) ∧
      decode_dict (b :: p) = decode_dict (100 :: p) ∧
      decode_int [120, 53, 101] = .ok 5 :=
  ⟨rfl, rfl, rfl, rfl⟩

/-- C5: for every transaction ID, sender identity and server identity, a
`ping` query datagram produces exactly one reply datagram: the bencoded
dictionary with `y = "r"`, result dictionary `{"id": <server identity>}`,
and `t` echoing the query's transaction ID. -/
theorem c5_server_ping_reply (nodeId tid senderId : List Nat) :
    handle_query nodeId (querySerialized tid strPing [(strId, .bytes senderId)]) =
      .ok [encode (.dict [(strT, .bytes tid), (strY, .str strR),
        (strR, .dict [(strId, .bytes nodeId)])])] := by
  have hWF : WFb (.dict [(strT, BVal.bytes tid), (strY, .str strQ),
      (strQ, .str strPing), (strA, .dict [(strId, .bytes senderId)])]) = true := rfl
  have hdec := decode_dict_encode _ hWF
  show (do
    let packet ← decode_dict (querySerialized tid strPing [(strId, .bytes senderId)])
    dispatchQuery nodeId packet) = _
  rw [show querySerialized tid strPing [(strId, .bytes senderId)] =
      encode (.dict [(strT, BVal.bytes tid), (strY, .str strQ),
        (strQ, .str strPing), (strA, .dict [(strId, .bytes senderId)])]) from rfl,
    hdec]
  simp only [exceptBind_ok]
  rw [show canonPairs (sortPairs [(strT, BVal.bytes tid), (strY, .str strQ),
      (strQ, .str strPing), (strA, .dict [(strId, .bytes senderId)])]) =
    [(strA, canon (.dict [(strId, .bytes senderId)])), (strQ, .str strPing),
      (strT, canon (.bytes tid)), (strY, .str strQ)] from rfl]
  by_cases ht : utf8Valid tid = true
  · rw [show canon (.bytes tid) = if utf8Valid tid then .str tid else .bytes tid
      from rfl, if_pos ht]
    rfl
  · rw [show canon (.bytes tid) = if utf8Valid tid then .str tid else .bytes tid
      from rfl, if_neg ht]
    rfl

/-- C8: a query whose method name is none of `ping`, `find_node`,
`get_peers`, `announce_peer` receives exactly one Error reply: the
bencoded dictionary with `y = "e"`, error list `[204, "Method Unknown"]`,
and `t` echoing the query's transaction ID. -/
theorem c8_unknown_method_error_reply (nodeId tid senderId m : List Nat)
    (hm : utf8Valid m = true)
    (hp : m ≠ strPing) (hf : m ≠ strFindNode)
    (hg : m ≠ strGetPeers) (ha : m ≠ strAnnouncePeer) :
    handle_query nodeId (querySerialized tid m [(strId, .bytes senderId)]) =
      .ok [encode (.dict [(strT, .bytes tid), (strY, .str strE),
        (strE, .list [.int 204, .str strMethodUnknown])])] := by
  have hWF : WFb (.dict [(strT, BVal.bytes tid), (strY, .str strQ),
      (strQ, .str m), (strA, .dict [(strId, .bytes senderId)])]) = true := by
    have h0 : WFb (.dict [(strT, BVal.bytes tid), (strY, .str strQ),
        (strQ, .str m), (strA, .dict [(strId, .bytes senderId)])]) =
        (utf8Valid m && true) := rfl
    rw [h0, hm]
    rfl
  have hdec := decode_dict_encode _ hWF
  show (do
    let packet ← decode_dict (querySerialized tid m [(strId, .bytes senderId)])
    dispatchQuery nodeId packet) = _
  rw [show querySerialized tid m [(strId, .bytes senderId)] =
      encode (.dict [(strT, BVal.bytes tid), (strY, .str strQ),
        (strQ, .str m), (strA, .dict [(strId, .bytes senderId)])]) from rfl,
    hdec]
  simp only [exceptBind_ok]
  rw [show canonPairs (sortPairs [(strT, BVal.bytes tid), (strY, .str strQ),
      (strQ, .str m), (strA, .dict [(strId, .bytes senderId)])]) =
    [(strA, canon (.dict [(strId, .bytes senderId)])), (strQ, .str m),
      (strT, canon (.bytes tid)), (strY, .str strQ)] from rfl]
  have hb1 : (m == strPing) = false := beq_eq_false_iff_ne.mpr hp
  have hb2 : (m == strFindNode) = false := beq_eq_false_iff_ne.mpr hf
  have hb3 : (m == strGetPeers) = false := beq_eq_false_iff_ne.mpr hg
  have hb4 : (m == strAnnouncePeer) = false := beq_eq_false_iff_ne.mpr ha
  by_cases ht : utf8Valid tid = true
  · rw [show canon (.bytes tid) = if utf8Valid tid then .str tid else .bytes tid
      from rfl, if_pos ht]
    simp only [dispatchQuery,
      show ∀ mm : List Nat, isMethodPacket
        [(strA, canon (.dict [(strId, BVal.bytes senderId)])), (strQ, .str m),
          (strT, BVal.str tid), (strY, .str strQ)] mm = .ok (m == mm)
        from fun mm => rfl,
      hb1, hb2, hb3, hb4, exceptBind_ok, Bool.false_eq_true, if_false]
    rfl
  · rw [show canon (.bytes tid) = if utf8Valid tid then .str tid else .bytes tid
      from rfl, if_neg ht]
    simp only [dispatchQuery,
      show ∀ mm : List Nat, isMethodPacket
        [(strA, canon (.dict [(strId, BVal.bytes senderId)])), (strQ, .str m),
          (strT, BVal.bytes tid), (strY, .str strQ)] mm = .ok (m == mm)
        from fun mm => rfl,
      hb1, hb2, hb3, hb4, exceptBind_ok, Bool.false_eq_true, if_false]
    rfl

/-- Witness for C8: the method `"wrong"` (as sent by the repository's own
test client) receives the code-204 "Method Unknown" error reply. -/
theorem c8_unknown_method_error_reply_witness :
    utf8Valid [119, 114, 111, 110, 103] = true ∧
      handle_query [9] (querySerialized [1, 2, 3, 4] [119, 114, 111, 110, 103]
        [(strId, .bytes [7])]) =
      .ok [encode (.dict [(strT, .bytes [1, 2, 3, 4]), (strY, .str strE),
        (strE, .list [.int 204, .str strMethodUnknown])])] :=
  ⟨rfl, c8_unknown_method_error_reply [9] [1, 2, 3, 4] [7]
    [119, 114, 111, 110, 103] rfl (by decide) (by decide) (by decide) (by decide)⟩

/-- C4: when every bootstrap address either stays silent, fails at the
transport, or answers the ping with a reply the session processes
successfully, `bootstrap()` never raises and returns exactly the
addresses that replied, in their original relative order (the fixed list
filtered by reachability). -/
theorem c4_bootstrap_returns_responders (nodeId tid : List Nat)
    (outcomes : String × Nat → Outcome)
    (h : ∀ addr ∈ BOOTSTRAP_NODES, ∀ d, outcomes addr = .reply d →
      pingOk nodeId tid d = true) :
    bootstrap nodeId tid outcomes =
      .ok (BOOTSTRAP_NODES.filter (fun a => isReply (outcomes a))) := by
  unfold bootstrap
  have H : ∀ l : List (String × Nat),
      (∀ addr ∈ l, ∀ d, outcomes addr = .reply d → pingOk nodeId tid d = true) →
      bootstrapGo nodeId tid outcomes l =
        .ok (l.filter (fun a => isReply (outcomes a))) := by
    intro l
    induction l with
    | nil => intro _; rfl
    | cons a rest ih =>
      intro hl
      have ihr := ih (fun addr ha d hd => hl addr (by simp [ha]) d hd)
      cases ho : outcomes a with
      | timeout =>
        have hfa : isReply (outcomes a) = false := by rw [ho]; rfl
        rw [show bootstrapGo nodeId tid outcomes (a :: rest) =
            bootstrapGo nodeId tid outcomes rest from by
          simp only [bootstrapGo, ho]]
        rw [ihr, List.filter_cons_of_neg (by simp [hfa])]
      | oserror =>
        have hfa : isReply (outcomes a) = false := by rw [ho]; rfl
        rw [show bootstrapGo nodeId tid outcomes (a :: rest) =
            bootstrapGo nodeId tid outcomes rest from by
          simp only [bootstrapGo, ho]]
        rw [ihr, List.filter_cons_of_neg (by simp [hfa])]
      | reply d =>
        have hok := hl a (by simp) d ho
        unfold pingOk at hok
        have hfa : isReply (outcomes a) = true := by rw [ho]; rfl
        cases hping : sessionPing nodeId tid [d] with
        | error e =>
          rw [hping] at hok
          simp at hok
        | ok x =>
          rw [show bootstrapGo nodeId tid outcomes (a :: rest) =
              (bootstrapGo nodeId tid outcomes rest).map (a :: ·) from by
            simp only [bootstrapGo, ho, hping]]
          rw [ihr, List.filter_cons_of_pos (by simp [hfa])]
          rfl
  exact H BOOTSTRAP_NODES h

/-- Witness for C4: with the middle address replying (a well-formed ping
reply) and the other two timing out, bootstrap returns exactly the middle
address. -/
theorem c4_bootstrap_returns_responders_witness :
    bootstrap [9] [1, 2, 3, 4]
      (fun addr => if addr = ("dht.transmissionbt.com", 6881)
        then .reply (encode (.dict [(strT, .bytes [255]), (strY, .str strR),
          (strR, .dict [(strId, .bytes [200])])]))
        else .timeout) = .ok [("dht.transmissionbt.com", 6881)] := by
  rw [c4_bootstrap_returns_responders [9] [1, 2, 3, 4] _ ?h]
  · rfl
  case h =>
    intro addr haddr d hd
    fin_cases haddr
    · rw [if_neg (by decide)] at hd
      exact (nomatch hd)
    · rw [if_pos rfl] at hd
      cases hd
      rfl
    · rw [if_neg (by decide)] at hd
      exact (nomatch hd)

/-- C10: when the datagram answering `Session.ping()` or
`Session.find_node()` decodes to a dictionary lacking `"r"`, or whose
`"r"` dictionary lacks `"id"` (or, for find_node, `"nodes"`), or that
lacks `"t"` — a KRPC error reply with `y = "e"`, for instance — the call
fails with the corresponding `KeyError`, not a timeout, and the remaining
queued datagrams are left untouched (the conclusion holds for every
`rest`). -/
theorem c10_response_missing_key_keyerror (nodeId tid target d : List Nat)
    (rest : List (List Nat)) (p : Dict) (hdec : decode_dict d = .ok p) :
    (dHasKey p strR = false →
      sessionPing nodeId tid (d :: rest) = .error (.keyError strR)) ∧
    (∀ rd, dGet p strR = .ok (.dict rd) → dHasKey rd strId = false →
      sessionPing nodeId tid (d :: rest) = .error (.keyError strId)) ∧
    (∀ rd i, dGet p strR = .ok (.dict rd) → dGet rd strId = .ok i →
      dHasKey p strT = false →
      sessionPing nodeId tid (d :: rest) = .error (.keyError strT)) ∧
    (∀ rd i t, dGet p strR = .ok (.dict rd) → dGet rd strId = .ok i →
      dGet p strT = .ok t → dHasKey rd strNodes = false →
      sessionFindNode nodeId tid target (d :: rest) =
        .error (.keyError strNodes)) := by
  have hsqP : sendQuery (querySerialized tid strPing [(strId, .bytes nodeId)])
      (d :: rest) = .ok (p, rest) := by
    show Except.map (fun q => (q, rest)) (decode_dict d) = .ok (p, rest)
    rw [hdec]
    rfl
  have hsqF : sendQuery (querySerialized tid strFindNode
      [(strId, .bytes nodeId), (strTarget, .bytes target)])
      (d :: rest) = .ok (p, rest) := by
    show Except.map (fun q => (q, rest)) (decode_dict d) = .ok (p, rest)
    rw [hdec]
    rfl
  refine ⟨?_, ?_, ?_, ?_⟩
  · intro hno
    have hR := dGet_of_hasKey_false hno
    unfold sessionPing
    rw [hsqP]
    simp only [exceptBind_ok]
    unfold mkResponse
    rw [hR]
    rfl
  · intro rd hR hno
    have hI := dGet_of_hasKey_false hno
    unfold sessionPing
    rw [hsqP]
    simp only [exceptBind_ok]
    unfold mkResponse
    rw [hR]
    simp only [exceptBind_ok]
    rw [hI]
    rfl
  · intro rd i hR hI hno
    have hT := dGet_of_hasKey_false hno
    unfold sessionPing
    rw [hsqP]
    simp only [exceptBind_ok]
    unfold mkResponse
    rw [hR]
    simp only [exceptBind_ok]
    rw [hI]
    simp only [exceptBind_ok]
    rw [hT]
    rfl
  · intro rd i t hR hI hT hno
    have hN := dGet_of_hasKey_false hno
    unfold sessionFindNode
    rw [hsqF]
    simp only [exceptBind_ok]
    unfold mkFindNodeResponse mkResponse
    rw [hR]
    simp only [exceptBind_ok]
    rw [hI]
    simp only [exceptBind_ok]
    rw [hT]
    simp only [exceptBind_ok]
    rw [hN]
    rfl

/-- Witness for C10: a KRPC error reply (`y = "e"`, carrying `t` and `e`
but no `"r"`) makes `Session.ping` fail with `KeyError "r"`, leaving a
second queued datagram unread. -/
theorem c10_response_missing_key_keyerror_witness :
    decode_dict (encode (.dict [(strT, .bytes [0, 1]), (strY, .str strE),
        (strE, .list [.int 201, .str [65]])])) =
      .ok [(strE, .list [.int 201, .str [65]]), (strT, .str [0, 1]),
        (strY, .str strE)] ∧
    sessionPing [9] [1, 2, 3, 4]
      [encode (.dict [(strT, .bytes [0, 1]), (strY, .str strE),
        (strE, .list [.int 201, .str [65]])]),
       encode (.dict [(strT, .bytes [0, 1]), (strY, .str strE),
        (strE, .list [.int 201, .str [65]])])] = .error (.keyError strR) :=
  ⟨rfl,
    ((c10_response_missing_key_keyerror [9] [1, 2, 3, 4] [0]
      (encode (.dict [(strT, .bytes [0, 1]), (strY, .str strE),
        (strE, .list [.int 201, .str [65]])]))
      [encode (.dict [(strT, .bytes [0, 1]), (strY, .str strE),
        (strE, .list [.int 201, .str [65]])])]
      [(strE, .list [.int 201, .str [65]]), (strT, .str [0, 1]),
        (strY, .str strE)] rfl).1) rfl⟩

end DHT
